import Mathlib

/-!
Shallow embedding of the pronunciation scoring engine from
`src/app/services/simpleSpeechService.ts`.

Strings are modelled as `List Char`; JavaScript floating point arithmetic on
scores is modelled as exact rational arithmetic (`ℚ`), with `Math.round`
modelled as `jsRound q = ⌊q + 1/2⌋` (JavaScript rounds half toward +∞).
-/

namespace SpeechService

/-- Whitespace characters as matched by the JavaScript `\s` class and
`String.prototype.trim` (ASCII part): space, tab, LF, VT, FF, CR. -/
def isWS (c : Char) : Bool :=
  c == ' ' || c == '\t' || c == '\n' || c == '\r' ||
    c == Char.ofNat 11 || c == Char.ofNat 12

/-- The punctuation characters removed by `normalizeGermanText`'s regex
`/[.,\/#!$%\^&\*;:{}=\-_`~()]/g`  (the brace characters and the backtick are
written via their code points). -/
def punctChars : List Char :=
  ['.', ',', '/', '#', '!', '$', '%', '^', '&', '*', ';', ':',
    Char.ofNat 123, Char.ofNat 125, '=', '-', '_', Char.ofNat 96, '~', '(', ')']

/-- Membership in the stripped punctuation set. -/
def isPunct (c : Char) : Bool := punctChars.contains c

/-- `String.prototype.toLowerCase` restricted to the alphabet this app uses:
ASCII letters and the German umlauts; anything else is returned unchanged. -/
def jsToLower (c : Char) : Char :=
  if 65 ≤ c.toNat ∧ c.toNat ≤ 90 then Char.ofNat (c.toNat + 32)
  else if c = 'Ä' then 'ä'
  else if c = 'Ö' then 'ö'
  else if c = 'Ü' then 'ü'
  else c

/-- `.replace(/\s+/g, ' ')`: each maximal run of whitespace becomes one space. -/
def collapseWS : List Char → List Char
  | [] => []
  | c :: cs =>
    if isWS c then ' ' :: collapseWS (cs.dropWhile isWS)
    else c :: collapseWS cs
termination_by l => l.length
decreasing_by
  · exact Nat.lt_succ_of_le ((List.dropWhile_suffix isWS).length_le)
  · simp

/-- `.trim()`: drop whitespace from both ends. -/
def trimEnds (l : List Char) : List Char :=
  ((l.dropWhile isWS).reverse.dropWhile isWS).reverse

/-- Adjacent-pair invariant of collapsed text: never two whitespace
characters in a row. -/
def sepWS (a b : Char) : Prop := ¬(isWS a = true ∧ isWS b = true)

/-- `normalizeGermanText`: lowercase, strip the punctuation set, collapse
whitespace runs to single spaces, trim the ends. -/
def normalizeGermanText (text : List Char) : List Char :=
  trimEnds (collapseWS ((text.map jsToLower).filter (fun c => !isPunct c)))

/-- JavaScript `.split(' ')`: split on every single space; the empty string
yields one empty token. -/
def splitSp : List Char → List (List Char)
  | [] => [[]]
  | c :: cs =>
    if c = ' ' then [] :: splitSp cs
    else
      match splitSp cs with
      | [] => [[c]]
      | w :: ws => (c :: w) :: ws

/-- The cell `matrix[i][j]` of the dynamic-programming matrix built by
`levenshteinDistance`: base cases `matrix[i][0] = i`, `matrix[0][j] = j`;
`matrix[i][j] = min(matrix[i-1][j]+1, matrix[i][j-1]+1, matrix[i-1][j-1]+cost)`
with `cost = (a[i-1] === b[j-1] ? 0 : 1)`. -/
def levMatrix (a b : List Char) : ℕ → ℕ → ℕ
  | 0, j => j
  | i + 1, 0 => i + 1
  | i + 1, j + 1 =>
    min (levMatrix a b i (j + 1) + 1)
      (min (levMatrix a b (i + 1) j + 1)
        (levMatrix a b i j + (if a[i]? = b[j]? then 0 else 1)))

/-- `levenshteinDistance(a, b)`: the bottom-right cell of the DP matrix. -/
def levenshteinDistance (a b : List Char) : ℕ :=
  levMatrix a b a.length b.length

/-- `Math.round` on a rational: JavaScript rounds half toward +∞, i.e.
`round x = floor (x + 1/2)`.  Stated via `Rat.floor` so concrete values
reduce; `jsRound_def` below restates it with `Int.floor`. -/
def jsRound (q : ℚ) : ℤ := (q + 1 / 2).floor

/-- `getPhoneticAnalysis`: whole-string similarity from the Levenshtein
distance of the normalized texts. -/
def getPhoneticAnalysis (spoken expected : List Char) : ℤ :=
  let normalizedSpoken := normalizeGermanText spoken
  let normalizedExpected := normalizeGermanText expected
  if normalizedExpected.length = 0 then 0
  else
    let distance := levenshteinDistance normalizedSpoken normalizedExpected
    let maxLength := max normalizedSpoken.length normalizedExpected.length
    jsRound (max 0 (100 - ((distance : ℚ) / (maxLength : ℚ)) * 100))

/-- `getRhythmAnalysis`: word-count penalty when the counts differ, otherwise
the average per-word length-difference score. -/
def getRhythmAnalysis (spoken expected : List Char) : ℤ :=
  let spokenWords := splitSp (normalizeGermanText spoken)
  let expectedWords := splitSp (normalizeGermanText expected)
  if spokenWords.length ≠ expectedWords.length then
    max 0 (70 - |(spokenWords.length : ℤ) - (expectedWords.length : ℤ)| * 10)
  else
    let minLength := min spokenWords.length expectedWords.length
    let totalScore :=
      ((spokenWords.zip expectedWords).map (fun p =>
        max 0 (100 - |(p.1.length : ℤ) - (p.2.length : ℤ)| * 15))).sum
    jsRound ((totalScore : ℚ) / ((max 1 minLength : ℕ) : ℚ))

/-- `getStressAnalysis`: default 70 for ≤1 word, otherwise the average of
per-position word similarities. -/
def getStressAnalysis (spoken expected : List Char) : ℤ :=
  let spokenWords := splitSp (normalizeGermanText spoken)
  let expectedWords := splitSp (normalizeGermanText expected)
  if spokenWords.length ≤ 1 ∨ expectedWords.length ≤ 1 then 70
  else
    let minLength := min spokenWords.length expectedWords.length
    let totalScore :=
      ((spokenWords.zip expectedWords).map (fun p =>
        if p.1 = p.2 then (100 : ℚ)
        else 100 - ((levenshteinDistance p.1 p.2 : ℚ) /
          ((max p.1.length p.2.length : ℕ) : ℚ)) * 100)).sum
    jsRound (totalScore / ((max 1 minLength : ℕ) : ℚ))

/-- Scan of the overlapping prefix of two character lists for the first
position where they differ (the loop in `getFeedback`). -/
def firstMismatch : List Char → List Char → Option (Char × Char)
  | x :: xs, y :: ys => if x ≠ y then some (x, y) else firstMismatch xs ys
  | _, _ => none

/-- `getFeedback`: threshold table, with a character-level mismatch message
below 40. -/
def getFeedback (score : ℤ) (spoken expected : List Char) : String :=
  if score ≥ 90 then "Excellent pronunciation!"
  else if score ≥ 75 then "Very good pronunciation, keep practicing!"
  else if score ≥ 60 then "Good effort, try to pronounce more clearly."
  else if score ≥ 40 then "Keep practicing, focus on pronouncing each syllable."
  else
    match firstMismatch (normalizeGermanText spoken) (normalizeGermanText expected) with
    | some (sc, ec) =>
      "Practice needed. Try to pronounce \"" ++ String.singleton ec ++
        "\" instead of \"" ++ String.singleton sc ++ "\"."
    | none => "Try again and speak more clearly."

/-- The `details` field of a `PronunciationAnalysis`. -/
structure AnalysisDetails where
  phoneticAccuracy : ℤ
  rhythmAccuracy : ℤ
  stressAccuracy : ℤ
deriving DecidableEq

/-- The result record of `analyzePronunciation`. -/
structure PronunciationAnalysis where
  score : ℤ
  feedback : String
  details : AnalysisDetails
  error : Option String
deriving DecidableEq

/-- `analyzePronunciation`: the no-speech short circuit, then the three
sub-analyses, the weighted aggregate, and feedback. -/
def analyzePronunciation (transcribed expected : List Char) : PronunciationAnalysis :=
  if trimEnds transcribed = [] then
    { score := 0
      feedback := "No speech detected. Please try again and speak more clearly."
      details := ⟨0, 0, 0⟩
      error := none }
  else
    let phoneticAccuracy := getPhoneticAnalysis transcribed expected
    let rhythmAccuracy := getRhythmAnalysis transcribed expected
    let stressAccuracy := getStressAnalysis transcribed expected
    let score := jsRound ((phoneticAccuracy : ℚ) * 0.6 +
      (rhythmAccuracy : ℚ) * 0.2 + (stressAccuracy : ℚ) * 0.2)
    { score := score
      feedback := getFeedback score transcribed expected
      details := ⟨phoneticAccuracy, rhythmAccuracy, stressAccuracy⟩
      error := none }

/-! ## Levenshtein theory

`levRec` is the textbook head-recursion for edit distance; `levMatrix` is
shown to tabulate it (on reversed prefixes), and `levRec` in turn is shown to
be the least number of single-character edit steps. -/

/-- Textbook recursive Levenshtein distance (peeling heads). -/
def levRec : List Char → List Char → ℕ
  | [], b => b.length
  | _ :: xs, [] => xs.length + 1
  | x :: xs, y :: ys =>
    min (levRec xs (y :: ys) + 1)
      (min (levRec (x :: xs) ys + 1)
        (levRec xs ys + (if x = y then 0 else 1)))

/-- One single-character edit: insertion, deletion or substitution, at any
position of the string. -/
inductive EditStep : List Char → List Char → Prop
  | ins (c : Char) (l : List Char) : EditStep l (c :: l)
  | del (c : Char) (l : List Char) : EditStep (c :: l) l
  | sub (c d : Char) (l : List Char) : EditStep (c :: l) (d :: l)
  | cons (c : Char) {l₁ l₂ : List Char} : EditStep l₁ l₂ → EditStep (c :: l₁) (c :: l₂)

/-- `Edits n a b`: `a` can be transformed into `b` by `n` single-character
edits. -/
inductive Edits : ℕ → List Char → List Char → Prop
  | refl (l : List Char) : Edits 0 l l
  | step {n : ℕ} {l₁ l₂ l₃ : List Char} :
      EditStep l₁ l₂ → Edits n l₂ l₃ → Edits (n + 1) l₁ l₃

theorem levRec_nil_right : ∀ t : List Char, levRec t [] = t.length
  | [] => by simp [levRec]
  | _ :: _ => by simp [levRec]

theorem levRec_self : ∀ a : List Char, levRec a a = 0
  | [] => by simp [levRec]
  | x :: xs => by
    have ih := levRec_self xs
    simp [levRec, ih]

/-- The DP matrix cell `(i, j)` equals the recursive distance between the
reversed `i`-prefix of `a` and the reversed `j`-prefix of `b`. -/
theorem levMatrix_eq (a b : List Char) :
    ∀ i j, i ≤ a.length → j ≤ b.length →
      levMatrix a b i j = levRec ((a.take i).reverse) ((b.take j).reverse) := by
  intro i
  induction i with
  | zero =>
    intro j _ hj
    simp [levMatrix, levRec]
    omega
  | succ i ih =>
    intro j
    induction j with
    | zero =>
      intro hi _
      simp [levMatrix, levRec_nil_right]
      omega
    | succ j ihj =>
      intro hi hj
      have hia : i < a.length := by omega
      have hjb : j < b.length := by omega
      have ha : (a.take (i + 1)).reverse = a[i] :: (a.take i).reverse := by
        rw [List.take_succ, List.getElem?_eq_getElem hia]
        simp
      have hb : (b.take (j + 1)).reverse = b[j] :: (b.take j).reverse := by
        rw [List.take_succ, List.getElem?_eq_getElem hjb]
        simp
      rw [ha, hb]
      simp only [levMatrix]
      rw [ih (j + 1) (by omega) hj, ihj (by omega) (by omega),
        ih j (by omega) (by omega), hb, ha,
        List.getElem?_eq_getElem hia, List.getElem?_eq_getElem hjb]
      simp [levRec]

/-- The DP function computes the recursive distance of the reversed inputs. -/
theorem levenshteinDistance_eq_levRec (a b : List Char) :
    levenshteinDistance a b = levRec a.reverse b.reverse := by
  have h := levMatrix_eq a b a.length b.length le_rfl le_rfl
  simpa [levenshteinDistance, List.take_length] using h

theorem Edits.comp {m n : ℕ} {a b c : List Char}
    (h₁ : Edits m a b) (h₂ : Edits n b c) : Edits (m + n) a c := by
  induction h₁ with
  | refl => simpa using h₂
  | step s _ ih =>
    have := Edits.step s (ih h₂)
    simpa [Nat.add_right_comm] using this

theorem Edits.single {a b : List Char} (h : EditStep a b) : Edits 1 a b :=
  Edits.step h (Edits.refl b)

theorem Edits.snoc {n : ℕ} {a b c : List Char}
    (h : Edits n a b) (h₂ : EditStep b c) : Edits (n + 1) a c :=
  h.comp (Edits.single h₂)

theorem Edits.consList (c : Char) {n : ℕ} {a b : List Char}
    (h : Edits n a b) : Edits n (c :: a) (c :: b) := by
  induction h with
  | refl l => exact Edits.refl _
  | step s _ ih => exact Edits.step (EditStep.cons c s) ih

theorem edits_from_nil : ∀ b : List Char, Edits b.length [] b
  | [] => Edits.refl []
  | y :: ys => (edits_from_nil ys).snoc (EditStep.ins y ys)

theorem edits_to_nil : ∀ a : List Char, Edits a.length a []
  | [] => Edits.refl []
  | x :: xs => Edits.step (EditStep.del x xs) (edits_to_nil xs)

/-- Achievability: `levRec a b` edits always suffice to turn `a` into `b`. -/
theorem edits_levRec : ∀ a b : List Char, Edits (levRec a b) a b
  | [], b => by simpa [levRec] using edits_from_nil b
  | x :: xs, [] => by simpa [levRec] using edits_to_nil (x :: xs)
  | x :: xs, y :: ys => by
    have IH1 := edits_levRec xs (y :: ys)
    have IH2 := edits_levRec (x :: xs) ys
    have IH3 := edits_levRec xs ys
    simp only [levRec]
    rcases min_choice (levRec xs (y :: ys) + 1)
      (min (levRec (x :: xs) ys + 1)
        (levRec xs ys + if x = y then 0 else 1)) with h | h
    · rw [h]
      exact Edits.step (EditStep.del x xs) IH1
    · rw [h]
      rcases min_choice (levRec (x :: xs) ys + 1)
        (levRec xs ys + if x = y then 0 else 1) with h' | h'
      · rw [h']
        exact IH2.snoc (EditStep.ins y ys)
      · rw [h']
        by_cases hxy : x = y
        · subst hxy
          simpa using IH3.consList x
        · rw [if_neg hxy]
          exact Edits.step (EditStep.sub x y xs) (IH3.consList y)

theorem levRec_cons_left_le (x : Char) (xs b : List Char) :
    levRec (x :: xs) b ≤ levRec xs b + 1 := by
  cases b with
  | nil => simp [levRec_nil_right]
  | cons y ys =>
    simp only [levRec]
    omega

theorem levRec_cons_right_le (a : List Char) (y : Char) (ys : List Char) :
    levRec a (y :: ys) ≤ levRec a ys + 1 := by
  cases a with
  | nil => simp [levRec]
  | cons x xs =>
    simp only [levRec]
    omega

theorem levRec_le_sub_branch (x y : Char) (xs ys : List Char) :
    levRec (x :: xs) (y :: ys) ≤ levRec xs ys + (if x = y then 0 else 1) := by
  conv_lhs => rw [levRec]
  omega

theorem levRec_cons_cons_le (x y : Char) (xs ys : List Char) :
    levRec (x :: xs) (y :: ys) ≤ levRec xs ys + 1 := by
  have h := levRec_le_sub_branch x y xs ys
  have h1 : (if x = y then (0 : ℕ) else 1) ≤ 1 := by split <;> omega
  omega

theorem levRec_tail_left_le (x : Char) (xs : List Char) :
    ∀ b, levRec xs b ≤ levRec (x :: xs) b + 1
  | [] => by
    simp only [levRec_nil_right, List.length_cons]
    omega
  | y :: ys => by
    have h2 := levRec_cons_right_le xs y ys
    have h2' := levRec_tail_left_le x xs ys
    conv_rhs => rw [levRec]
    omega

theorem levRec_head_sub_le (x d : Char) (xs : List Char) :
    ∀ b, levRec (x :: xs) b ≤ levRec (d :: xs) b + 1
  | [] => by
    simp only [levRec_nil_right, List.length_cons]
    omega
  | y :: ys => by
    have ha := levRec_cons_left_le x xs (y :: ys)
    have hb := levRec_cons_right_le (x :: xs) y ys
    have hc := levRec_head_sub_le x d xs ys
    have hd := levRec_cons_cons_le x y xs ys
    conv_rhs => rw [levRec]
    omega

/-- One edit step changes the distance to any third string by at most one. -/
theorem editStep_levRec_le {a c : List Char} (h : EditStep a c) :
    ∀ b, levRec a b ≤ levRec c b + 1 := by
  induction h with
  | ins ch l => exact fun b => levRec_tail_left_le ch l b
  | del ch l => exact fun b => levRec_cons_left_le ch l b
  | sub ch d l => exact fun b => levRec_head_sub_le ch d l b
  | @cons ch l₁ l₂ h ih =>
    intro b
    induction b with
    | nil =>
      have := ih []
      simp only [levRec_nil_right, List.length_cons] at *
      omega
    | cons y ys ihb =>
      have h1 := levRec_cons_left_le ch l₁ (y :: ys)
      have h2 := ih (y :: ys)
      have h3 := levRec_cons_right_le (ch :: l₁) y ys
      have h5 := ih ys
      have h4 := levRec_le_sub_branch ch y l₁ ys
      conv_rhs => rw [levRec]
      omega

/-- Optimality: no edit script is shorter than `levRec`. -/
theorem levRec_le_edits {n : ℕ} {a b : List Char} (h : Edits n a b) :
    levRec a b ≤ n := by
  induction h with
  | refl l => simp [levRec_self]
  | @step k l₁ l₂ l₃ s _ ih =>
    have := editStep_levRec_le s l₃
    omega

/-- `levRec a b` is the least number of edits transforming `a` into `b`. -/
theorem levRec_isLeast (a b : List Char) :
    IsLeast {n : ℕ | Edits n a b} (levRec a b) :=
  ⟨edits_levRec a b, fun _ hn => levRec_le_edits hn⟩

theorem editStep_symm {a b : List Char} (h : EditStep a b) : EditStep b a := by
  induction h with
  | ins c l => exact EditStep.del c l
  | del c l => exact EditStep.ins c l
  | sub c d l => exact EditStep.sub d c l
  | cons c _ ih => exact EditStep.cons c ih

theorem edits_symm {n : ℕ} {a b : List Char} (h : Edits n a b) : Edits n b a := by
  induction h with
  | refl l => exact Edits.refl l
  | step s _ ih => exact ih.snoc (editStep_symm s)

theorem editStep_append_right {a b : List Char} (h : EditStep a b) (c : Char) :
    EditStep (a ++ [c]) (b ++ [c]) := by
  induction h with
  | ins d l => exact EditStep.ins d (l ++ [c])
  | del d l => exact EditStep.del d (l ++ [c])
  | sub d e l => exact EditStep.sub d e (l ++ [c])
  | cons d _ ih => exact EditStep.cons d ih

theorem editStep_ins_last (c : Char) : ∀ l : List Char, EditStep l (l ++ [c])
  | [] => EditStep.ins c []
  | x :: xs => EditStep.cons x (editStep_ins_last c xs)

theorem editStep_del_last (c : Char) : ∀ l : List Char, EditStep (l ++ [c]) l
  | [] => EditStep.del c []
  | x :: xs => EditStep.cons x (editStep_del_last c xs)

theorem editStep_sub_last (c d : Char) :
    ∀ l : List Char, EditStep (l ++ [c]) (l ++ [d])
  | [] => EditStep.sub c d []
  | x :: xs => EditStep.cons x (editStep_sub_last c d xs)

theorem editStep_reverse {a b : List Char} (h : EditStep a b) :
    EditStep a.reverse b.reverse := by
  induction h with
  | ins c l => simpa using editStep_ins_last c l.reverse
  | del c l => simpa using editStep_del_last c l.reverse
  | sub c d l => simpa using editStep_sub_last c d l.reverse
  | cons c _ ih => simpa using editStep_append_right ih c

theorem edits_reverse {n : ℕ} {a b : List Char} (h : Edits n a b) :
    Edits n a.reverse b.reverse := by
  induction h with
  | refl l => exact Edits.refl _
  | step s _ ih => exact Edits.step (editStep_reverse s) ih

theorem edits_reverse_iff {n : ℕ} {a b : List Char} :
    Edits n a.reverse b.reverse ↔ Edits n a b := by
  constructor
  · intro h
    simpa using edits_reverse h
  · exact edits_reverse

/-- The DP function `levenshteinDistance` is the least number of edits. -/
theorem levenshteinDistance_isLeast (a b : List Char) :
    IsLeast {n : ℕ | Edits n a b} (levenshteinDistance a b) := by
  rw [levenshteinDistance_eq_levRec]
  have h := levRec_isLeast a.reverse b.reverse
  have hset : {n : ℕ | Edits n a.reverse b.reverse} = {n : ℕ | Edits n a b} := by
    ext n
    exact edits_reverse_iff
  rwa [hset] at h

theorem levenshteinDistance_nil_left (b : List Char) :
    levenshteinDistance [] b = b.length := by
  simp [levenshteinDistance_eq_levRec, levRec]

theorem levenshteinDistance_nil_right (a : List Char) :
    levenshteinDistance a [] = a.length := by
  simp [levenshteinDistance_eq_levRec, levRec_nil_right]

theorem levenshteinDistance_comm (a b : List Char) :
    levenshteinDistance a b = levenshteinDistance b a := by
  have h₁ := levenshteinDistance_isLeast a b
  have h₂ := levenshteinDistance_isLeast b a
  have hset : {n : ℕ | Edits n b a} = {n : ℕ | Edits n a b} := by
    ext n
    exact ⟨fun h => edits_symm h, fun h => edits_symm h⟩
  rw [hset] at h₂
  exact h₁.unique h₂

theorem levRec_le_max : ∀ a b : List Char, levRec a b ≤ max a.length b.length
  | [], b => by simp [levRec]
  | x :: xs, [] => by simp [levRec_nil_right]
  | x :: xs, y :: ys => by
    have ih := levRec_le_max xs ys
    have h := levRec_cons_cons_le x y xs ys
    simp only [List.length_cons]
    omega

/-- The Levenshtein distance never exceeds the longer string's length. -/
theorem levenshteinDistance_le_max (a b : List Char) :
    levenshteinDistance a b ≤ max a.length b.length := by
  rw [levenshteinDistance_eq_levRec]
  simpa using levRec_le_max a.reverse b.reverse

theorem trimEnds_eq_nil_of_all_ws {t : List Char}
    (h : ∀ c ∈ t, isWS c = true) : trimEnds t = [] := by
  have hd : t.dropWhile isWS = [] := List.dropWhile_eq_nil_iff.mpr h
  simp [trimEnds, hd]

/-- C1: a spoken string that is empty or whitespace-only makes
`analyzePronunciation` return the fixed no-speech result, with all scores 0
and no error field. -/
theorem C1_no_speech_short_circuit (t e : List Char)
    (h : t = [] ∨ ∀ c ∈ t, isWS c = true) :
    analyzePronunciation t e =
      { score := 0
        feedback := "No speech detected. Please try again and speak more clearly."
        details := ⟨0, 0, 0⟩
        error := none } := by
  have htrim : trimEnds t = [] := by
    rcases h with h | h
    · subst h
      simp [trimEnds]
    · exact trimEnds_eq_nil_of_all_ws h
  simp [analyzePronunciation, htrim]

theorem C1_no_speech_short_circuit_witness :
    (([] : List Char) = [] ∨ ∀ c ∈ ([] : List Char), isWS c = true) ∧
    ((' ' :: '\t' :: []) = [] ∨ ∀ c ∈ (' ' :: '\t' :: []), isWS c = true) ∧
    analyzePronunciation [] "Danke".toList =
      { score := 0
        feedback := "No speech detected. Please try again and speak more clearly."
        details := ⟨0, 0, 0⟩
        error := none } ∧
    analyzePronunciation (' ' :: '\t' :: []) "Danke".toList =
      { score := 0
        feedback := "No speech detected. Please try again and speak more clearly."
        details := ⟨0, 0, 0⟩
        error := none } :=
  ⟨Or.inl rfl, Or.inr (by decide),
    C1_no_speech_short_circuit [] "Danke".toList (Or.inl rfl),
    C1_no_speech_short_circuit (' ' :: '\t' :: []) "Danke".toList (Or.inr (by decide))⟩

/-- C2: the dynamic-programming `levenshteinDistance` is the classic
Levenshtein distance — the least number of single-character insertions,
deletions and substitutions transforming `a` into `b` — and on an empty
input it returns the other string's length. -/
theorem C2_levenshteinDistance_classic (a b : List Char) :
    IsLeast {n : ℕ | Edits n a b} (levenshteinDistance a b) ∧
    levenshteinDistance [] b = b.length ∧
    levenshteinDistance a [] = a.length :=
  ⟨levenshteinDistance_isLeast a b,
    levenshteinDistance_nil_left b,
    levenshteinDistance_nil_right a⟩

/-- C4: for non-empty, non-whitespace-only spoken input the overall score is
the rounded 0.6/0.2/0.2 weighted sum of the three sub-analyses; concretely,
"Hallo" vs "Hallo" gives 100/100/70, score 94 and feedback
"Excellent pronunciation!". -/
theorem C4_weighted_aggregate :
    (∀ t e : List Char, trimEnds t ≠ [] →
      (analyzePronunciation t e).score =
        jsRound ((getPhoneticAnalysis t e : ℚ) * 0.6 +
          (getRhythmAnalysis t e : ℚ) * 0.2 + (getStressAnalysis t e : ℚ) * 0.2)) ∧
    analyzePronunciation "Hallo".toList "Hallo".toList =
      { score := 94
        feedback := "Excellent pronunciation!"
        details := ⟨100, 100, 70⟩
        error := none } := by
  constructor
  · intro t e h
    simp [analyzePronunciation, h]
  · with_unfolding_all decide

theorem C4_weighted_aggregate_witness :
    trimEnds "Hi".toList ≠ [] ∧
    (analyzePronunciation "Hi".toList "Hallo".toList).score =
      jsRound ((getPhoneticAnalysis "Hi".toList "Hallo".toList : ℚ) * 0.6 +
        (getRhythmAnalysis "Hi".toList "Hallo".toList : ℚ) * 0.2 +
        (getStressAnalysis "Hi".toList "Hallo".toList : ℚ) * 0.2) :=
  ⟨by with_unfolding_all decide,
    C4_weighted_aggregate.left "Hi".toList "Hallo".toList (by with_unfolding_all decide)⟩

/-- C5: when the spoken and expected texts split into different word counts,
the rhythm score is `max 0 (70 - 10 * |countSpoken - countExpected|)`;
word counts 3 vs 5 give 50. -/
theorem C5_rhythm_word_count_penalty :
    (∀ s e : List Char,
      (splitSp (normalizeGermanText s)).length ≠ (splitSp (normalizeGermanText e)).length →
      getRhythmAnalysis s e =
        max 0 (70 - 10 * |((splitSp (normalizeGermanText s)).length : ℤ) -
          ((splitSp (normalizeGermanText e)).length : ℤ)|)) ∧
    getRhythmAnalysis "Hallo wie geht".toList "Hallo wie geht es dir".toList = 50 := by
  constructor
  · intro s e h
    simp only [getRhythmAnalysis, if_pos h]
    ring_nf
  · with_unfolding_all decide

theorem C5_rhythm_word_count_penalty_witness :
    (splitSp (normalizeGermanText "a".toList)).length ≠
      (splitSp (normalizeGermanText "a b".toList)).length ∧
    getRhythmAnalysis "a".toList "a b".toList =
      max 0 (70 - 10 * |((splitSp (normalizeGermanText "a".toList)).length : ℤ) -
        ((splitSp (normalizeGermanText "a b".toList)).length : ℤ)|) :=
  ⟨by with_unfolding_all decide,
    C5_rhythm_word_count_penalty.left "a".toList "a b".toList
      (by with_unfolding_all decide)⟩

/-- C8: when the expected text normalizes to the empty string,
`getPhoneticAnalysis` returns 0 (the divide-by-zero branch is guarded). -/
theorem C8_empty_expected_phonetic_zero (s e : List Char)
    (h : normalizeGermanText e = []) : getPhoneticAnalysis s e = 0 := by
  simp [getPhoneticAnalysis, h]

theorem C8_empty_expected_phonetic_zero_witness :
    normalizeGermanText "...".toList = [] ∧
    getPhoneticAnalysis "Hallo".toList "...".toList = 0 :=
  ⟨by with_unfolding_all decide,
    C8_empty_expected_phonetic_zero "Hallo".toList "...".toList
      (by with_unfolding_all decide)⟩

/-- C9: the edit distance is symmetric. -/
theorem C9_editDistance_symm (a b : List Char) :
    levenshteinDistance a b = levenshteinDistance b a :=
  levenshteinDistance_comm a b

theorem jsRound_def (q : ℚ) : jsRound q = ⌊q + 1 / 2⌋ := by
  rw [jsRound, Rat.floor_def, Rat.floor_def']

theorem jsRound_nonneg {q : ℚ} (h : 0 ≤ q) : 0 ≤ jsRound q := by
  rw [jsRound_def, Int.le_floor]
  push_cast
  linarith

theorem jsRound_le_100 {q : ℚ} (h : q ≤ 100) : jsRound q ≤ 100 := by
  rw [jsRound_def]
  have h100 : (⌊(100 : ℚ) + 1 / 2⌋ : ℤ) = 100 := by
    rw [Int.floor_eq_iff] <;> norm_num
  calc ⌊q + 1 / 2⌋ ≤ ⌊(100 : ℚ) + 1 / 2⌋ := Int.floor_le_floor (by linarith)
    _ = 100 := h100

theorem getPhoneticAnalysis_bounds (s e : List Char) :
    0 ≤ getPhoneticAnalysis s e ∧ getPhoneticAnalysis s e ≤ 100 := by
  unfold getPhoneticAnalysis
  dsimp only
  split_ifs with h
  · simp
  · constructor
    · exact jsRound_nonneg (le_max_left 0 _)
    · apply jsRound_le_100
      apply max_le (by norm_num)
      have : (0 : ℚ) ≤ ((levenshteinDistance (normalizeGermanText s) (normalizeGermanText e) : ℚ) /
          ((max (normalizeGermanText s).length (normalizeGermanText e).length : ℕ) : ℚ)) * 100 := by
        positivity
      linarith

theorem getRhythmAnalysis_bounds (s e : List Char) :
    0 ≤ getRhythmAnalysis s e ∧ getRhythmAnalysis s e ≤ 100 := by
  unfold getRhythmAnalysis
  dsimp only
  split_ifs with h
  · have habs : (0 : ℤ) ≤ |((splitSp (normalizeGermanText s)).length : ℤ) -
        ((splitSp (normalizeGermanText e)).length : ℤ)| := abs_nonneg _
    omega
  · set sw := splitSp (normalizeGermanText s) with hsw
    set ew := splitSp (normalizeGermanText e) with hew
    set T := ((sw.zip ew).map (fun p =>
      max 0 (100 - |(p.1.length : ℤ) - (p.2.length : ℤ)| * 15))).sum with hT
    have hT0 : 0 ≤ T := by
      apply List.sum_nonneg
      intro x hx
      simp only [List.mem_map] at hx
      obtain ⟨p, _, rfl⟩ := hx
      exact le_max_left 0 _
    have hTle : T ≤ 100 * ((sw.zip ew).length : ℤ) := by
      have := List.sum_le_card_nsmul
        ((sw.zip ew).map (fun p =>
          max 0 (100 - |(p.1.length : ℤ) - (p.2.length : ℤ)| * 15))) 100 ?_
      · simpa [mul_comm] using this
      · intro x hx
        simp only [List.mem_map] at hx
        obtain ⟨p, _, rfl⟩ := hx
        have := abs_nonneg ((p.1.length : ℤ) - (p.2.length : ℤ))
        omega
    have hzlen : ((sw.zip ew).length : ℤ) ≤ ((max 1 (min sw.length ew.length) : ℕ) : ℤ) := by
      rw [List.length_zip]
      exact_mod_cast le_max_right 1 _
    have hMpos : (0 : ℚ) < ((max 1 (min sw.length ew.length) : ℕ) : ℚ) := by
      have : 1 ≤ max 1 (min sw.length ew.length) := le_max_left 1 _
      exact_mod_cast lt_of_lt_of_le zero_lt_one (by exact_mod_cast this)
    constructor
    · apply jsRound_nonneg
      apply div_nonneg _ (le_of_lt hMpos)
      exact_mod_cast hT0
    · apply jsRound_le_100
      rw [div_le_iff hMpos]
      have : T ≤ 100 * ((max 1 (min sw.length ew.length) : ℕ) : ℤ) := le_trans hTle (by linarith)
      push_cast
      exact_mod_cast this

theorem getStressAnalysis_bounds (s e : List Char) :
    0 ≤ getStressAnalysis s e ∧ getStressAnalysis s e ≤ 100 := by
  unfold getStressAnalysis
  dsimp only
  split_ifs with h
  · norm_num
  · set sw := splitSp (normalizeGermanText s) with hsw
    set ew := splitSp (normalizeGermanText e) with hew
    set T := ((sw.zip ew).map (fun p =>
      if p.1 = p.2 then (100 : ℚ)
      else 100 - ((levenshteinDistance p.1 p.2 : ℚ) /
        ((max p.1.length p.2.length : ℕ) : ℚ)) * 100)).sum with hT
    have hterm : ∀ p : List Char × List Char,
        (0 : ℚ) ≤ (if p.1 = p.2 then (100 : ℚ)
          else 100 - ((levenshteinDistance p.1 p.2 : ℚ) /
            ((max p.1.length p.2.length : ℕ) : ℚ)) * 100) ∧
        (if p.1 = p.2 then (100 : ℚ)
          else 100 - ((levenshteinDistance p.1 p.2 : ℚ) /
            ((max p.1.length p.2.length : ℕ) : ℚ)) * 100) ≤ 100 := by
      intro p
      split_ifs with hp
      · norm_num
      · have hmax1 : 1 ≤ max p.1.length p.2.length := by
          rcases Nat.eq_zero_or_pos (max p.1.length p.2.length) with h0 | h1
          · exfalso
            apply hp
            have h1 : p.1.length = 0 := by omega
            have h2 : p.2.length = 0 := by omega
            rw [List.length_eq_zero] at h1 h2
            rw [h1, h2]
          · exact h1
        have hpos : (0 : ℚ) < ((max p.1.length p.2.length : ℕ) : ℚ) := by
          exact_mod_cast hmax1
        have hratio : ((levenshteinDistance p.1 p.2 : ℚ) /
            ((max p.1.length p.2.length : ℕ) : ℚ)) ≤ 1 := by
          rw [div_le_one hpos]
          exact_mod_cast levenshteinDistance_le_max p.1 p.2
        have hratio0 : (0 : ℚ) ≤ ((levenshteinDistance p.1 p.2 : ℚ) /
            ((max p.1.length p.2.length : ℕ) : ℚ)) := by positivity
        constructor <;> linarith
    have hT0 : 0 ≤ T := by
      apply List.sum_nonneg
      intro x hx
      simp only [List.mem_map] at hx
      obtain ⟨p, _, rfl⟩ := hx
      exact (hterm p).1
    have hTle : T ≤ 100 * ((sw.zip ew).length : ℚ) := by
      have h2 := List.sum_le_card_nsmul
        ((sw.zip ew).map (fun p =>
          if p.1 = p.2 then (100 : ℚ)
          else 100 - ((levenshteinDistance p.1 p.2 : ℚ) /
            ((max p.1.length p.2.length : ℕ) : ℚ)) * 100)) 100 ?_
      · rw [List.length_map, nsmul_eq_mul] at h2
        rw [hT]
        linarith
      · intro x hx
        simp only [List.mem_map] at hx
        obtain ⟨p, _, rfl⟩ := hx
        exact (hterm p).2
    have hzlen : ((sw.zip ew).length : ℚ) ≤ ((max 1 (min sw.length ew.length) : ℕ) : ℚ) := by
      rw [List.length_zip]
      exact_mod_cast le_max_right 1 _
    have hMpos : (0 : ℚ) < ((max 1 (min sw.length ew.length) : ℕ) : ℚ) := by
      have h1 : 1 ≤ max 1 (min sw.length ew.length) := le_max_left 1 _
      exact_mod_cast lt_of_lt_of_le zero_lt_one (by exact_mod_cast h1)
    constructor
    · exact jsRound_nonneg (div_nonneg hT0 (le_of_lt hMpos))
    · apply jsRound_le_100
      rw [div_le_iff hMpos]
      linarith

/-- C3: for every input pair, the overall score and the three sub-scores of
`analyzePronunciation` are integers in `[0, 100]` (the unclamped branch of
the stress analysis is covered by `levenshteinDistance_le_max`). -/
theorem C3_scores_in_range (spoken expected : List Char) :
    (0 ≤ (analyzePronunciation spoken expected).score ∧
      (analyzePronunciation spoken expected).score ≤ 100) ∧
    (0 ≤ (analyzePronunciation spoken expected).details.phoneticAccuracy ∧
      (analyzePronunciation spoken expected).details.phoneticAccuracy ≤ 100) ∧
    (0 ≤ (analyzePronunciation spoken expected).details.rhythmAccuracy ∧
      (analyzePronunciation spoken expected).details.rhythmAccuracy ≤ 100) ∧
    (0 ≤ (analyzePronunciation spoken expected).details.stressAccuracy ∧
      (analyzePronunciation spoken expected).details.stressAccuracy ≤ 100) := by
  unfold analyzePronunciation
  split_ifs with h
  · norm_num
  · have hp := getPhoneticAnalysis_bounds spoken expected
    have hr := getRhythmAnalysis_bounds spoken expected
    have hs := getStressAnalysis_bounds spoken expected
    simp only
    refine ⟨⟨?_, ?_⟩, hp, hr, hs⟩
    · apply jsRound_nonneg
      have h1 : (0 : ℚ) ≤ (getPhoneticAnalysis spoken expected : ℚ) := by exact_mod_cast hp.1
      have h2 : (0 : ℚ) ≤ (getRhythmAnalysis spoken expected : ℚ) := by exact_mod_cast hr.1
      have h3 : (0 : ℚ) ≤ (getStressAnalysis spoken expected : ℚ) := by exact_mod_cast hs.1
      have w1 : (0 : ℚ) ≤ 0.6 := by norm_num
      nlinarith
    · apply jsRound_le_100
      have h1 : (getPhoneticAnalysis spoken expected : ℚ) ≤ 100 := by exact_mod_cast hp.2
      have h2 : (getRhythmAnalysis spoken expected : ℚ) ≤ 100 := by exact_mod_cast hr.2
      have h3 : (getStressAnalysis spoken expected : ℚ) ≤ 100 := by exact_mod_cast hs.2
      nlinarith

theorem toNat_charOfNat {n : ℕ} (h : n < 55296) : (Char.ofNat n).toNat = n := by
  unfold Char.ofNat
  rw [dif_pos (Or.inl h)]
  rfl

theorem jsToLower_toNat_of_upper {c : Char} (h : 65 ≤ c.toNat ∧ c.toNat ≤ 90) :
    (jsToLower c).toNat = c.toNat + 32 := by
  rw [jsToLower, if_pos h]
  exact toNat_charOfNat (by omega)

theorem jsToLower_fixed_of_lower {e : Char} (h1 : 97 ≤ e.toNat)
    (h2 : e.toNat ≤ 122) : jsToLower e = e := by
  unfold jsToLower
  rw [if_neg (by omega)]
  rw [if_neg (fun hEq => by rw [hEq] at h2; exact absurd h2 (by decide))]
  rw [if_neg (fun hEq => by rw [hEq] at h2; exact absurd h2 (by decide))]
  rw [if_neg (fun hEq => by rw [hEq] at h2; exact absurd h2 (by decide))]

theorem jsToLower_idem (c : Char) : jsToLower (jsToLower c) = jsToLower c := by
  by_cases h : 65 ≤ c.toNat ∧ c.toNat ≤ 90
  · have ht : (jsToLower c).toNat = c.toNat + 32 := jsToLower_toNat_of_upper h
    exact jsToLower_fixed_of_lower (by omega) (by omega)
  · by_cases hA : c = 'Ä'
    · subst hA
      decide
    · by_cases hO : c = 'Ö'
      · subst hO
        decide
      · by_cases hU : c = 'Ü'
        · subst hU
          decide
        · have hc : jsToLower c = c := by
            rw [jsToLower, if_neg h, if_neg hA, if_neg hO, if_neg hU]
          rw [hc, hc]

theorem jsToLower_of_punct {c : Char} (h : isPunct c = true) : jsToLower c = c := by
  have hm : c ∈ punctChars := by simpa [isPunct] using h
  rw [punctChars] at hm
  fin_cases hm <;> decide

theorem head_dropWhile_false {p : Char → Bool} {l : List Char} {x : Char}
    {xs : List Char} (h : l.dropWhile p = x :: xs) : p x = false := by
  induction l with
  | nil => simp at h
  | cons c cs ih =>
    rw [List.dropWhile_cons] at h
    split_ifs at h with hc
    · exact ih h
    · cases h
      simpa using hc

theorem dropWhile_dropWhile (p : Char → Bool) (l : List Char) :
    (l.dropWhile p).dropWhile p = l.dropWhile p := by
  rcases hd : l.dropWhile p with _ | ⟨x, xs⟩
  · simp
  · rw [List.dropWhile_cons, if_neg]
    simp [head_dropWhile_false hd]

theorem mem_of_mem_dropWhile {p : Char → Bool} {l : List Char} {c : Char}
    (h : c ∈ l.dropWhile p) : c ∈ l :=
  (List.dropWhile_suffix p).sublist.mem h

theorem mem_of_mem_trimEnds {l : List Char} {c : Char}
    (h : c ∈ trimEnds l) : c ∈ l := by
  rw [trimEnds, List.mem_reverse] at h
  have h2 := mem_of_mem_dropWhile h
  rw [List.mem_reverse] at h2
  exact mem_of_mem_dropWhile h2

theorem mem_collapseWS {c : Char} :
    ∀ {l : List Char}, c ∈ collapseWS l → c = ' ' ∨ (c ∈ l ∧ isWS c = false) := by
  intro l
  induction l using collapseWS.induct with
  | case1 => simp [collapseWS]
  | case2 d ds hws ih =>
    intro h
    rw [collapseWS, if_pos hws, List.mem_cons] at h
    rcases h with h | h
    · exact Or.inl h
    · rcases ih h with h' | ⟨hmem, hns⟩
      · exact Or.inl h'
      · exact Or.inr ⟨List.mem_cons_of_mem d (mem_of_mem_dropWhile hmem), hns⟩
  | case3 d ds hws ih =>
    intro h
    rw [collapseWS, if_neg hws, List.mem_cons] at h
    rcases h with rfl | h
    · exact Or.inr ⟨List.mem_cons_self _ _, by simpa using hws⟩
    · rcases ih h with h' | ⟨hmem, hns⟩
      · exact Or.inl h'
      · exact Or.inr ⟨List.mem_cons_of_mem d hmem, hns⟩

theorem collapseWS_cons_not_ws {d : Char} (ds : List Char)
    (hd : isWS d = false) : collapseWS (d :: ds) = d :: collapseWS ds := by
  rw [collapseWS, if_neg (by simp [hd])]

theorem chain_collapseWS : ∀ l : List Char, List.Chain' sepWS (collapseWS l) := by
  intro l
  induction l using collapseWS.induct with
  | case1 => simp [collapseWS]
  | case2 d ds hws ih =>
    rw [collapseWS, if_pos hws]
    rw [List.chain'_cons']
    refine ⟨?_, ih⟩
    intro y hy
    rcases hdw : ds.dropWhile isWS with _ | ⟨x, xs⟩
    · rw [hdw] at hy
      simp [collapseWS] at hy
    · rw [hdw, collapseWS_cons_not_ws xs (head_dropWhile_false hdw)] at hy
      simp only [List.head?_cons, Option.mem_def, Option.some.injEq] at hy
      subst hy
      exact fun hc => by simp [head_dropWhile_false hdw] at hc
  | case3 d ds hws ih =>
    rw [collapseWS, if_neg hws]
    rw [List.chain'_cons']
    refine ⟨?_, ih⟩
    intro y _
    exact fun hc => hws (by simpa using hc.1)

theorem chain_suffix {R : Char → Char → Prop} {l s : List Char}
    (hs : s <:+ l) (h : List.Chain' R l) : List.Chain' R s := by
  obtain ⟨t, rfl⟩ := hs
  exact (List.chain'_append.mp h).2.1

theorem chain_sepWS_reverse {l : List Char} (h : List.Chain' sepWS l) :
    List.Chain' sepWS l.reverse := by
  rw [List.chain'_reverse]
  exact h.imp (fun a b hab hc => hab ⟨hc.2, hc.1⟩)

theorem chain_trimEnds {l : List Char} (h : List.Chain' sepWS l) :
    List.Chain' sepWS (trimEnds l) := by
  rw [trimEnds]
  apply chain_sepWS_reverse
  apply chain_suffix (List.dropWhile_suffix isWS)
  apply chain_sepWS_reverse
  exact chain_suffix (List.dropWhile_suffix isWS) h

theorem collapseWS_eq_self :
    ∀ {l : List Char}, (∀ c ∈ l, isWS c = true → c = ' ') →
      List.Chain' sepWS l → collapseWS l = l := by
  intro l
  induction l using collapseWS.induct with
  | case1 => intro _ _; simp [collapseWS]
  | case2 d ds hws ih =>
    intro hsp hch
    have hd : d = ' ' := hsp d (List.mem_cons_self d ds) hws
    have hdrop : ds.dropWhile isWS = ds := by
      rcases ds with _ | ⟨x, xs⟩
      · simp
      · have hsep : sepWS d x := (List.chain'_cons.mp hch).1
        have hx : isWS x = false := by
          by_contra hx
          exact hsep ⟨hws, by simpa using hx⟩
        rw [List.dropWhile_cons, if_neg (by simp [hx])]
    rw [collapseWS, if_pos hws, hdrop]
    rw [hdrop] at ih
    rw [ih (fun c hc hwc => hsp c (List.mem_cons_of_mem d hc) hwc) hch.tail, hd]
  | case3 d ds hws ih =>
    intro hsp hch
    rw [collapseWS, if_neg hws]
    rw [ih (fun c hc hwc => hsp c (List.mem_cons_of_mem d hc) hwc) hch.tail]

theorem trimEnds_eq_self {l : List Char}
    (hfront : l.dropWhile isWS = l) (hback : l.reverse.dropWhile isWS = l.reverse) :
    trimEnds l = l := by
  rw [trimEnds, hfront, hback, List.reverse_reverse]

theorem trimEnds_front (l : List Char) :
    (trimEnds l).dropWhile isWS = trimEnds l := by
  obtain ⟨s, hs⟩ : ((l.dropWhile isWS).reverse.dropWhile isWS) <:+
      (l.dropWhile isWS).reverse := List.dropWhile_suffix isWS
  have hr : trimEnds l = ((l.dropWhile isWS).reverse.dropWhile isWS).reverse := rfl
  rcases hd : ((l.dropWhile isWS).reverse.dropWhile isWS).reverse with _ | ⟨x, xs⟩
  · rw [hr, hd]
    rfl
  · have hu : l.dropWhile isWS = x :: (xs ++ s.reverse) := by
      have h2 := congrArg List.reverse hs
      rw [List.reverse_append, List.reverse_reverse] at h2
      rw [← h2, hd]
      simp
    have hxw : isWS x = false := head_dropWhile_false hu
    rw [hr, hd, List.dropWhile_cons, if_neg (by simp [hxw])]

theorem trimEnds_back (l : List Char) :
    (trimEnds l).reverse.dropWhile isWS = (trimEnds l).reverse := by
  rw [trimEnds, List.reverse_reverse]
  exact dropWhile_dropWhile isWS _

theorem map_eq_self_of_fixed {f : Char → Char} :
    ∀ {l : List Char}, (∀ c ∈ l, f c = c) → l.map f = l
  | [], _ => rfl
  | c :: cs, h => by
    rw [List.map_cons, h c (List.mem_cons_self c cs),
      map_eq_self_of_fixed (fun d hd => h d (List.mem_cons_of_mem c hd))]

theorem mem_normalize_cases {s : List Char} {c : Char}
    (h : c ∈ normalizeGermanText s) :
    c = ' ' ∨ (c ∈ (s.map jsToLower).filter (fun d => !isPunct d) ∧ isWS c = false) := by
  rw [normalizeGermanText] at h
  exact mem_collapseWS (mem_of_mem_trimEnds h)

theorem normalize_lowered {s : List Char} {c : Char}
    (h : c ∈ normalizeGermanText s) : jsToLower c = c := by
  rcases mem_normalize_cases h with h' | ⟨hmem, _⟩
  · subst h'
    decide
  · obtain ⟨hms, _⟩ := List.mem_filter.mp hmem
    obtain ⟨a, _, rfl⟩ := List.mem_map.mp hms
    exact jsToLower_idem a

theorem normalize_no_punct {s : List Char} {c : Char}
    (h : c ∈ normalizeGermanText s) : isPunct c = false := by
  rcases mem_normalize_cases h with h' | ⟨hmem, _⟩
  · subst h'
    decide
  · simpa using (List.mem_filter.mp hmem).2

theorem normalize_ws_space {s : List Char} {c : Char}
    (h : c ∈ normalizeGermanText s) (hw : isWS c = true) : c = ' ' := by
  rcases mem_normalize_cases h with h' | ⟨_, hns⟩
  · exact h'
  · rw [hw] at hns
    cases hns

theorem normalize_chain (s : List Char) :
    List.Chain' sepWS (normalizeGermanText s) := by
  rw [normalizeGermanText]
  exact chain_trimEnds (chain_collapseWS _)

/-- C6: the text normalizer is idempotent. -/
theorem C6_normalize_idempotent (s : List Char) :
    normalizeGermanText (normalizeGermanText s) = normalizeGermanText s := by
  set r := normalizeGermanText s with hr
  have h1 : r.map jsToLower = r :=
    map_eq_self_of_fixed (fun c hc => normalize_lowered hc)
  have h2 : r.filter (fun d => !isPunct d) = r :=
    List.filter_eq_self.mpr (fun c hc => by simp [normalize_no_punct hc])
  have h3 : collapseWS r = r :=
    collapseWS_eq_self (fun c hc hw => normalize_ws_space hc hw) (normalize_chain s)
  have h4 : trimEnds r = r := by
    apply trimEnds_eq_self
    · have := trimEnds_front (collapseWS ((s.map jsToLower).filter (fun d => !isPunct d)))
      simpa [normalizeGermanText] using this
    · have := trimEnds_back (collapseWS ((s.map jsToLower).filter (fun d => !isPunct d)))
      simpa [normalizeGermanText] using this
  conv_lhs => rw [normalizeGermanText, h1, h2, h3, h4]

theorem firstMismatch_none_iff :
    ∀ xs ys : List Char, (firstMismatch xs ys = none ↔
      ∀ i, i < min xs.length ys.length → xs[i]? = ys[i]?) := by
  intro xs
  induction xs with
  | nil =>
    intro ys
    simp [firstMismatch]
  | cons x xs ih =>
    intro ys
    cases ys with
    | nil => simp [firstMismatch]
    | cons y ys =>
      rw [firstMismatch]
      by_cases hxy : x = y
      · subst hxy
        rw [if_neg (by simp)]
        rw [ih ys]
        constructor
        · intro hall i hi
          cases i with
          | zero => simp
          | succ i =>
            simp only [List.getElem?_cons_succ]
            apply hall
            simp only [List.length_cons] at hi
            omega
        · intro hall i hi
          have := hall (i + 1) (by simp only [List.length_cons]; omega)
          simpa using this
      · rw [if_pos (by simp [hxy])]
        simp only [reduceCtorEq, false_iff, not_forall]
        refine ⟨0, by simp only [List.length_cons]; omega, by simpa using hxy⟩

theorem firstMismatch_some_iff :
    ∀ (xs ys : List Char) (p : Char × Char), (firstMismatch xs ys = some p ↔
      ∃ i, i < min xs.length ys.length ∧ xs[i]? = some p.1 ∧ ys[i]? = some p.2 ∧
        p.1 ≠ p.2 ∧ ∀ j, j < i → xs[j]? = ys[j]?) := by
  intro xs
  induction xs with
  | nil =>
    intro ys p
    simp [firstMismatch]
  | cons x xs ih =>
    intro ys p
    cases ys with
    | nil => simp [firstMismatch]
    | cons y ys =>
      rw [firstMismatch]
      by_cases hxy : x = y
      · subst hxy
        rw [if_neg (by simp)]
        rw [ih ys p]
        constructor
        · rintro ⟨i, hi, h1, h2, hne, hbef⟩
          refine ⟨i + 1, by simp only [List.length_cons]; omega, by simpa using h1,
            by simpa using h2, hne, ?_⟩
          intro j hj
          cases j with
          | zero => simp
          | succ j => simpa using hbef j (by omega)
        · rintro ⟨i, hi, h1, h2, hne, hbef⟩
          cases i with
          | zero =>
            exfalso
            apply hne
            simp only [List.getElem?_cons_zero, Option.some.injEq] at h1 h2
            rw [← h1, ← h2]
          | succ i =>
            refine ⟨i, by simp only [List.length_cons] at hi; omega,
              by simpa using h1, by simpa using h2, hne, ?_⟩
            intro j hj
            have := hbef (j + 1) (by omega)
            simpa using this
      · rw [if_pos (by simp [hxy])]
        constructor
        · intro hEq
          have hp : p = (x, y) := by
            simpa [eq_comm] using hEq
          subst hp
          exact ⟨0, by simp only [List.length_cons]; omega, by simp, by simp, hxy,
            fun j hj => absurd hj (by omega)⟩
        · rintro ⟨i, hi, h1, h2, hne, hbef⟩
          cases i with
          | zero =>
            simp only [List.getElem?_cons_zero, Option.some.injEq] at h1 h2
            simp [h1, h2]
          | succ i =>
            exfalso
            apply hxy
            have := hbef 0 (by omega)
            simpa using this

/-- C7: for scores below 40 (with non-empty spoken text), the feedback scans
the normalized character sequences up to the shorter length: at the first
differing position it names the expected and spoken characters, and if the
overlapping prefix agrees everywhere it is the generic retry message. -/
theorem C7_low_score_feedback (score : ℤ) (s e : List Char) (h : score < 40) :
    ((∃ i, i < min (normalizeGermanText s).length (normalizeGermanText e).length ∧
        (normalizeGermanText s)[i]? ≠ (normalizeGermanText e)[i]?) →
      ∃ i sc ec, i < min (normalizeGermanText s).length (normalizeGermanText e).length ∧
        (normalizeGermanText s)[i]? = some sc ∧ (normalizeGermanText e)[i]? = some ec ∧
        sc ≠ ec ∧ (∀ j, j < i → (normalizeGermanText s)[j]? = (normalizeGermanText e)[j]?) ∧
        getFeedback score s e =
          "Practice needed. Try to pronounce \"" ++ String.singleton ec ++
            "\" instead of \"" ++ String.singleton sc ++ "\".") ∧
    ((∀ i, i < min (normalizeGermanText s).length (normalizeGermanText e).length →
        (normalizeGermanText s)[i]? = (normalizeGermanText e)[i]?) →
      getFeedback score s e = "Try again and speak more clearly.") := by
  have hfb : getFeedback score s e =
      match firstMismatch (normalizeGermanText s) (normalizeGermanText e) with
      | some (sc, ec) =>
        "Practice needed. Try to pronounce \"" ++ String.singleton ec ++
          "\" instead of \"" ++ String.singleton sc ++ "\"."
      | none => "Try again and speak more clearly." := by
    rw [getFeedback, if_neg (by omega), if_neg (by omega), if_neg (by omega),
      if_neg (by omega)]
  constructor
  · intro hex
    rcases hm : firstMismatch (normalizeGermanText s) (normalizeGermanText e) with _ | ⟨sc, ec⟩
    · exfalso
      obtain ⟨i, hi, hne⟩ := hex
      exact hne ((firstMismatch_none_iff _ _).mp hm i hi)
    · obtain ⟨i, hi, h1, h2, hne, hbef⟩ := (firstMismatch_some_iff _ _ (sc, ec)).mp hm
      refine ⟨i, sc, ec, hi, h1, h2, hne, hbef, ?_⟩
      rw [hfb, hm]
  · intro hall
    rcases hm : firstMismatch (normalizeGermanText s) (normalizeGermanText e) with _ | ⟨sc, ec⟩
    · rw [hfb, hm]
    · exfalso
      obtain ⟨i, hi, h1, h2, hne, _⟩ := (firstMismatch_some_iff _ _ (sc, ec)).mp hm
      apply hne
      have := hall i hi
      rw [h1, h2] at this
      simpa using this

theorem C7_low_score_feedback_witness :
    (10 : ℤ) < 40 ∧
    (∃ i, i < min (normalizeGermanText "Xyz".toList).length
        (normalizeGermanText "Hallo".toList).length ∧
      (normalizeGermanText "Xyz".toList)[i]? ≠ (normalizeGermanText "Hallo".toList)[i]?) ∧
    ∃ i sc ec, i < min (normalizeGermanText "Xyz".toList).length
        (normalizeGermanText "Hallo".toList).length ∧
      (normalizeGermanText "Xyz".toList)[i]? = some sc ∧
      (normalizeGermanText "Hallo".toList)[i]? = some ec ∧
      sc ≠ ec ∧
      (∀ j, j < i → (normalizeGermanText "Xyz".toList)[j]? =
        (normalizeGermanText "Hallo".toList)[j]?) ∧
      getFeedback 10 "Xyz".toList "Hallo".toList =
        "Practice needed. Try to pronounce \"" ++ String.singleton ec ++
          "\" instead of \"" ++ String.singleton sc ++ "\"." :=
  ⟨by norm_num,
    ⟨0, by with_unfolding_all decide⟩,
    (C7_low_score_feedback 10 "Xyz".toList "Hallo".toList (by norm_num)).1
      ⟨0, by with_unfolding_all decide⟩⟩

theorem isPunct_not_ws {c : Char} (h : isPunct c = true) : isWS c = false := by
  have hm : c ∈ punctChars := by simpa [isPunct] using h
  rw [punctChars] at hm
  fin_cases hm <;> decide

theorem dropWhile_eq_self_of_none {p : Char → Bool} :
    ∀ {l : List Char}, (∀ c ∈ l, p c = false) → l.dropWhile p = l
  | [], _ => rfl
  | c :: cs, h => by
    rw [List.dropWhile_cons, if_neg (by simp [h c (List.mem_cons_self c cs)])]

theorem trimEnds_of_no_ws {t : List Char} (h : ∀ c ∈ t, isWS c = false) :
    trimEnds t = t := by
  rw [trimEnds, dropWhile_eq_self_of_none h,
    dropWhile_eq_self_of_none (fun c hc => h c (List.mem_reverse.mp hc)),
    List.reverse_reverse]

theorem normalize_of_all_punct {t : List Char} (hp : ∀ c ∈ t, isPunct c = true) :
    normalizeGermanText t = [] := by
  have hmap : t.map jsToLower = t :=
    map_eq_self_of_fixed (fun c hc => jsToLower_of_punct (hp c hc))
  have hfil : (t.map jsToLower).filter (fun d => !isPunct d) = [] := by
    rw [hmap]
    rw [List.filter_eq_nil_iff]
    intro c hc
    simp [hp c hc]
  rw [normalizeGermanText, hfil]
  have h0 : collapseWS [] = [] := by rw [collapseWS]
  rw [h0]
  rfl

theorem jsRound_zero : jsRound 0 = 0 := by
  rw [jsRound_def]
  rw [Int.floor_eq_iff] <;> norm_num

theorem getPhoneticAnalysis_of_empty_spoken {t e : List Char}
    (ht : normalizeGermanText t = []) (he : normalizeGermanText e ≠ []) :
    getPhoneticAnalysis t e = 0 := by
  unfold getPhoneticAnalysis
  dsimp only
  rw [if_neg (by simpa [List.length_eq_zero] using he)]
  rw [ht, levenshteinDistance_nil_left]
  have hlen : (0 : ℕ) ⊔ (normalizeGermanText e).length = (normalizeGermanText e).length := by
    simp
  rw [List.length_nil, hlen]
  have hne : ((normalizeGermanText e).length : ℚ) ≠ 0 := by
    simpa [List.length_eq_zero] using he
  rw [div_self hne]
  norm_num [jsRound_zero]

theorem getFeedback_ne_no_speech (score : ℤ) (s e : List Char) :
    getFeedback score s e ≠
      "No speech detected. Please try again and speak more clearly." := by
  have hlen : ∀ ec sc : Char,
      ("Practice needed. Try to pronounce \"" ++ String.singleton ec ++
        "\" instead of \"" ++ String.singleton sc ++ "\".").length = 53 := by
    intro ec sc
    simp only [String.length_append]
    rfl
  rw [getFeedback]
  split_ifs with h1 h2 h3 h4
  · decide
  · decide
  · decide
  · decide
  · rcases hm : firstMismatch (normalizeGermanText s) (normalizeGermanText e) with _ | ⟨sc, ec⟩
    · decide
    · change ("Practice needed. Try to pronounce \"" ++ String.singleton ec ++
        "\" instead of \"" ++ String.singleton sc ++ "\".") ≠ _
      intro hEq
      have h2 := congrArg String.length hEq
      rw [hlen ec sc] at h2
      exact absurd h2 (by decide)

/-- C10: the no-speech check tests only the raw (trimmed) spoken string, so a
spoken string made only of stripped punctuation does not short-circuit: the
normalized spoken text is empty, the sub-analyses run (phonetic accuracy 0
whenever the normalized expected text is non-empty), and the feedback comes
from the score table, not the no-speech message. -/
theorem C10_punct_only_runs_analyses (t e : List Char) (hne : t ≠ [])
    (hp : ∀ c ∈ t, isPunct c = true) :
    trimEnds t ≠ [] ∧
    normalizeGermanText t = [] ∧
    (analyzePronunciation t e).details =
      ⟨getPhoneticAnalysis t e, getRhythmAnalysis t e, getStressAnalysis t e⟩ ∧
    (analyzePronunciation t e).feedback =
      getFeedback ((analyzePronunciation t e).score) t e ∧
    (analyzePronunciation t e).error = none ∧
    (normalizeGermanText e ≠ [] →
      (analyzePronunciation t e).details.phoneticAccuracy = 0) ∧
    (analyzePronunciation t e).feedback ≠
      "No speech detected. Please try again and speak more clearly." := by
  have htrim : trimEnds t = t := trimEnds_of_no_ws (fun c hc => isPunct_not_ws (hp c hc))
  have htrim' : trimEnds t ≠ [] := by rw [htrim]; exact hne
  have hnorm : normalizeGermanText t = [] := normalize_of_all_punct hp
  have hana : analyzePronunciation t e =
      { score := jsRound ((getPhoneticAnalysis t e : ℚ) * 0.6 +
          (getRhythmAnalysis t e : ℚ) * 0.2 + (getStressAnalysis t e : ℚ) * 0.2)
        feedback := getFeedback (jsRound ((getPhoneticAnalysis t e : ℚ) * 0.6 +
          (getRhythmAnalysis t e : ℚ) * 0.2 + (getStressAnalysis t e : ℚ) * 0.2)) t e
        details := ⟨getPhoneticAnalysis t e, getRhythmAnalysis t e, getStressAnalysis t e⟩
        error := none } := by
    rw [analyzePronunciation, if_neg htrim']
  refine ⟨htrim', hnorm, ?_, ?_, ?_, ?_, ?_⟩
  · rw [hana]
  · rw [hana]
  · rw [hana]
  · intro he
    rw [hana]
    exact getPhoneticAnalysis_of_empty_spoken hnorm he
  · rw [hana]
    exact getFeedback_ne_no_speech _ t e

theorem C10_punct_only_runs_analyses_witness :
    "...".toList ≠ [] ∧ (∀ c ∈ "...".toList, isPunct c = true) ∧
    (trimEnds "...".toList ≠ [] ∧
      normalizeGermanText "...".toList = [] ∧
      (analyzePronunciation "...".toList "abc".toList).details =
        ⟨getPhoneticAnalysis "...".toList "abc".toList,
          getRhythmAnalysis "...".toList "abc".toList,
          getStressAnalysis "...".toList "abc".toList⟩ ∧
      (analyzePronunciation "...".toList "abc".toList).feedback =
        getFeedback ((analyzePronunciation "...".toList "abc".toList).score)
          "...".toList "abc".toList ∧
      (analyzePronunciation "...".toList "abc".toList).error = none ∧
      (normalizeGermanText "abc".toList ≠ [] →
        (analyzePronunciation "...".toList "abc".toList).details.phoneticAccuracy = 0) ∧
      (analyzePronunciation "...".toList "abc".toList).feedback ≠
        "No speech detected. Please try again and speak more clearly.") :=
  ⟨by decide, by decide,
    C10_punct_only_runs_analyses "...".toList "abc".toList (by decide) (by decide)⟩

end SpeechService
